import Mathlib

/-!
Verification development for `update-imported-docs.py`, a tool that
imports generated documentation.  The script's pure string-processing
core is shallowly embedded over `List Char`:

* `process_links` applies `re.sub` with the greedy pattern
  `\[(?P<ankor>.*)\]\((?P<target>.*)\)` and then strips one leading
  line matching `^(# .*)?\n`.
* `process_kubectl_links` applies `re.sub` with the pattern
  `\[(?P<ankor>.*)\]\((?P<target>.*?)\)` (lazy target) and may raise
  `IndexError` (modelled as `Option.none`).

Since `.` in Python regexes does not match a newline and neither pattern
uses MULTILINE/DOTALL, every match lies within a single line and the
scan order is per line, left to right; the substitution is therefore
embedded line by line (`splitLines` / `joinLines`).  Within a line, the
leftmost match starting at a `[` is found by backtracking: the greedy
`ankor` group selects the rightmost `](` that is followed by a later
`)`; the greedy target then extends to the last `)` and the lazy target
to the first `)`.  `tryGreedy` / `tryLazy` implement exactly that, and
the line scanners are structurally recursive on an explicit fuel (one
unit per character, so fuel = line length never runs out).

Path manipulation (`os.path.join`, `os.path.dirname`,
`os.path.basename` — POSIX behaviour), `str.split`, the remote-URL
regex `^https://(?P<prefix>.*)\.git$` (where `$` also matches just
before one trailing newline), the release-string normalisation and the
module-level preflight checks are embedded faithfully below.
-/

/-- Split at the first occurrence of `c`: `splitFirst c l = some (b, a)`
with `l = b ++ c :: a` and `c ∉ b`. -/
def splitFirst (c : Char) : List Char → Option (List Char × List Char)
  | [] => none
  | x :: xs =>
    if x = c then some ([], xs)
    else (splitFirst c xs).map (fun p => (x :: p.1, p.2))

/-- Split at the last occurrence of `c`: `splitLast c l = some (b, a)`
with `l = b ++ c :: a` and `c ∉ a`. -/
def splitLast (c : Char) : List Char → Option (List Char × List Char)
  | [] => none
  | x :: xs =>
    match splitLast c xs with
    | some p => some (x :: p.1, p.2)
    | none => if x = c then some ([], xs) else none

/-- Does `sep` occur as a contiguous substring of `l`?  (Python's
`sep in s`.) -/
def occursIn (sep : List Char) : List Char → Bool
  | [] => sep.isPrefixOf []
  | c :: cs => sep.isPrefixOf (c :: cs) || occursIn sep cs

/-- After the `](` of a candidate match, the greedy target runs to the
last `)`: `tryStartG ys = some (t, r)` iff `ys = "(" ++ t ++ ")" ++ r`
with no `)` in `r`. -/
def tryStartG : List Char → Option (List Char × List Char)
  | '(' :: ys => splitLast ')' ys
  | _ => none

/-- Backtracking step of the greedy pattern after a `[`: `tryGreedy s =
some (a, t, r)` decomposes `s = a ++ "](" ++ t ++ ")" ++ r` choosing the
rightmost `](` that is followed by some `)` (greedy `ankor`), and then
the last `)` (greedy `target`), exactly as Python's backtracking does
for `\[(.*)\]\((.*)\)`. -/
def tryGreedy : List Char → Option (List Char × List Char × List Char)
  | [] => none
  | c :: cs =>
    match tryGreedy cs with
    | some (a, t, r) => some (c :: a, t, r)
    | none =>
      if c = ']' then
        match tryStartG cs with
        | some (t, r) => some ([], t, r)
        | none => none
      else none

/-- Lazy variant of `tryStartG`: the target stops at the first `)`. -/
def tryStartL : List Char → Option (List Char × List Char)
  | '(' :: ys => splitFirst ')' ys
  | _ => none

/-- Like `tryGreedy` but the target group is lazy (`(.*?)`): the target
ends at the first `)`, as in `\[(.*)\]\((.*?)\)`. -/
def tryLazy : List Char → Option (List Char × List Char × List Char)
  | [] => none
  | c :: cs =>
    match tryLazy cs with
    | some (a, t, r) => some (c :: a, t, r)
    | none =>
      if c = ']' then
        match tryStartL cs with
        | some (t, r) => some ([], t, r)
        | none => none
      else none

/-- Python `s.split(sep)` for the non-empty separator `s0 :: sr`,
scanning left to right and skipping the matched separator.  The `skip`
argument counts separator characters still to be consumed. -/
def splitAux (s0 : Char) (sr : List Char) : List Char → Nat → List (List Char)
  | [], _ => [[]]
  | _ :: cs, skip + 1 => splitAux s0 sr cs skip
  | c :: cs, 0 =>
    if (s0 :: sr).isPrefixOf (c :: cs) then
      [] :: splitAux s0 sr cs sr.length
    else
      match splitAux s0 sr cs 0 with
      | g :: gs => (c :: g) :: gs
      | [] => [[c]]

/-- Python `s.split(sep)` with `sep = s0 :: sr`. -/
def pySplit (s0 : Char) (sr : List Char) (l : List Char) : List (List Char) :=
  splitAux s0 sr l 0

/-- `target.startswith("https://") or target.startswith("mailto:") or
target.startswith("#")` — the targets `process_links` leaves alone. -/
def safeTarget (t : List Char) : Bool :=
  ("https://".data).isPrefixOf t || ("mailto:".data).isPrefixOf t ||
    ("#".data).isPrefixOf t

/-- The `analyze` callback of `process_links`: rewrite one matched link
`[ankor](target)` given `remote_prefix` `rp` and `sub_path` `sp`. -/
def analyzeLinks (rp sp a t : List Char) : List Char :=
  let t2 :=
    if safeTarget t then t
    else if ("/".data).isPrefixOf t then rp ++ '/' :: t.drop 1
    else rp ++ '/' :: (sp ++ '/' :: t)
  '[' :: a ++ ']' :: '(' :: t2 ++ [')']

/-- The generated-commands URL stem used by `process_kubectl_links`. -/
def kubectlCmds : List Char :=
  "/docs/reference/generated/kubectl/kubectl-commands#".data

/-- The `analyze` callback of `process_kubectl_links`.  When the target
ends with `.md` and starts with `kubectl`, the code takes
`ankor.split("kubectl ")[1]`; if the anchor does not contain
`"kubectl "` that indexing raises `IndexError`, modelled as `none`. -/
def analyzeKubectl (a t : List Char) : Option (List Char) :=
  if (".md".data).isSuffixOf t && ("kubectl".data).isPrefixOf t then
    match pySplit 'k' ("ubectl ".data) a with
    | _ :: second :: _ => some ('[' :: a ++ ']' :: '(' :: (kubectlCmds ++ second) ++ [')'])
    | _ => none
  else some ('[' :: a ++ ']' :: '(' :: t ++ [')'])

/-- One line of `re.sub(r"\[(.*)\]\((.*)\)", analyze, content)`:
scan left to right, replace each (greedy) match, continue after it. -/
def subLinksLine (rp sp : List Char) : Nat → List Char → List Char
  | 0, l => l
  | _ + 1, [] => []
  | fuel + 1, c :: cs =>
    if c = '[' then
      match tryGreedy cs with
      | some (a, t, r) => analyzeLinks rp sp a t ++ subLinksLine rp sp fuel r
      | none => c :: subLinksLine rp sp fuel cs
    else c :: subLinksLine rp sp fuel cs

/-- The (ankor, target) pairs matched on one line by the greedy link
regex, in scan order. -/
def lineMatchesG : Nat → List Char → List (List Char × List Char)
  | 0, _ => []
  | _ + 1, [] => []
  | fuel + 1, c :: cs =>
    if c = '[' then
      match tryGreedy cs with
      | some (a, t, r) => (a, t) :: lineMatchesG fuel r
      | none => lineMatchesG fuel cs
    else lineMatchesG fuel cs

/-- One line of `re.sub(r"\[(.*)\]\((.*?)\)", analyze, content)` for the
kubectl transform; `none` models an `IndexError` escaping `re.sub`. -/
def subKubectlLine : Nat → List Char → Option (List Char)
  | 0, l => some l
  | _ + 1, [] => some []
  | fuel + 1, c :: cs =>
    if c = '[' then
      match tryLazy cs with
      | some (a, t, r) =>
        match analyzeKubectl a t, subKubectlLine fuel r with
        | some repl, some rest => some (repl ++ rest)
        | _, _ => none
      | none => (subKubectlLine fuel cs).map (fun rest => c :: rest)
    else (subKubectlLine fuel cs).map (fun rest => c :: rest)

/-- The (ankor, target) pairs matched on one line by the lazy link
regex, in scan order. -/
def lineMatchesL : Nat → List Char → List (List Char × List Char)
  | 0, _ => []
  | _ + 1, [] => []
  | fuel + 1, c :: cs =>
    if c = '[' then
      match tryLazy cs with
      | some (a, t, r) => (a, t) :: lineMatchesL fuel r
      | none => lineMatchesL fuel cs
    else lineMatchesL fuel cs

/-- Split content on newline characters (the boundaries no regex match
can cross). -/
def splitLines : List Char → List (List Char)
  | [] => [[]]
  | c :: cs =>
    if c = '\n' then [] :: splitLines cs
    else
      match splitLines cs with
      | g :: gs => (c :: g) :: gs
      | [] => [[c]]

/-- Inverse of `splitLines`: interleave newlines again. -/
def joinLines : List (List Char) → List Char
  | [] => []
  | [g] => g
  | g :: gs => g ++ '\n' :: joinLines gs

/-- `re.sub("^(# .*)?\n", "", content)`: without MULTILINE the anchor
`^` only matches at position 0, so at most one leading line is removed —
the first line if it is `# ...` (and terminated by a newline) or if it
is empty. -/
def stripH1 (l : List Char) : List Char :=
  match l with
  | '#' :: ' ' :: rest =>
    match splitFirst '\n' rest with
    | some p => p.2
    | none => l
  | '\n' :: rest => rest
  | _ => l

/-- Does the content start with a `# ` heading line? -/
def startsHeading (l : List Char) : Bool :=
  match l with
  | '#' :: ' ' :: _ => true
  | _ => false

/-- Does the content start with an empty (blank) first line? -/
def startsNewline (l : List Char) : Bool :=
  match l with
  | '\n' :: _ => true
  | _ => false

/-- `process_links(content, remote_prefix, sub_path)` over `List Char`:
rewrite every matched link, then strip one leading heading/blank line. -/
def processLinks (content rp sp : List Char) : List Char :=
  stripH1 (joinLines ((splitLines content).map
    (fun ln => subLinksLine rp sp ln.length ln)))

/-- All (ankor, target) pairs the greedy link regex matches in
`content`, in scan order. -/
def contentMatchesG (content : List Char) : List (List Char × List Char) :=
  (splitLines content).flatMap (fun ln => lineMatchesG ln.length ln)

/-- Sequence a list of optional lines; `none` anywhere models the
exception aborting the whole `re.sub`. -/
def seqOpt : List (Option (List Char)) → Option (List (List Char))
  | [] => some []
  | o :: os => o.bind (fun x => (seqOpt os).map (fun xs => x :: xs))

/-- `process_kubectl_links(content)` over `List Char`; `none` models an
`IndexError` raised inside `re.sub`. -/
def processKubectlLinks (content : List Char) : Option (List Char) :=
  (seqOpt ((splitLines content).map
    (fun ln => subKubectlLine ln.length ln))).map joinLines

/-- All (ankor, target) pairs the lazy link regex matches in `content`,
in scan order. -/
def contentMatchesL (content : List Char) : List (List Char × List Char) :=
  (splitLines content).flatMap (fun ln => lineMatchesL ln.length ln)

/-- `process_links` on `String`s, as in the source. -/
def process_links (content rp sp : String) : String :=
  ⟨processLinks content.data rp.data sp.data⟩

/-- `process_kubectl_links` on `String`s, as in the source. -/
def process_kubectl_links (content : String) : Option String :=
  (processKubectlLinks content.data).map (fun l => ⟨l⟩)

/-- Trailing-slash strip used by POSIX `dirname` (`head.rstrip('/')`). -/
def dropSlashesRight (l : List Char) : List Char :=
  (l.reverse.dropWhile (fun c => c == '/')).reverse

/-- POSIX `os.path.join(a, b)`: an absolute `b` discards `a`; otherwise
a single separator is inserted unless `a` is empty or already ends with
one. -/
def pyJoin (a b : List Char) : List Char :=
  if b.head? = some '/' then b
  else if a = [] ∨ a.getLast? = some '/' then a ++ b
  else a ++ '/' :: b

/-- POSIX `os.path.dirname(p)`: everything up to the last separator,
with trailing separators stripped unless the head is all separators. -/
def pyDirname (p : List Char) : List Char :=
  match splitLast '/' p with
  | none => []
  | some q =>
    let head := q.1 ++ ['/']
    if head.all (fun c => c == '/') then head else dropSlashesRight head

/-- POSIX `os.path.basename(p)`: everything after the last separator. -/
def pyBasename (p : List Char) : List Char :=
  match splitLast '/' p with
  | none => p
  | some q => q.2

/-- The content pipeline of `process_file` for one matched source file:
when `gen_absolute_links` is set, run the absolutize transform with
`remote_prefix = repo_path + "/tree/master"` and `sub_path =
os.path.dirname(src)`; when the destination ends with `kubectl.md`, run
the kubectl transform (whose `IndexError` is modelled as `none`). -/
def processFileContent (srcPath dstPath rpath : List Char) (gen : Bool)
    (content : List Char) : Option (List Char) :=
  let c1 :=
    if gen then processLinks content (rpath ++ "/tree/master".data) (pyDirname srcPath)
    else content
  if ("kubectl.md".data).isSuffixOf dstPath then processKubectlLinks c1 else some c1

/-- Destination resolution in `process_file`: `dst = dst_path`, and when
`dst_path` ends with `/`, `dst = os.path.join(dst, basename(src))`. -/
def resolveDst (dstPath srcFile : List Char) : List Char :=
  if dstPath.getLast? = some '/' then pyJoin dstPath (pyBasename srcFile)
  else dstPath

/-- `main`'s release normalisation: `if len(k8s_release) == 4:
k8s_release = k8s_release + ".0"`. -/
def k8sReleaseFix (s : List Char) : List Char :=
  if s.length = 4 then s ++ ".0".data else s

/-- `re.search(r"^https://(?P<prefix>.*)\.git$", remote)`: anchored at
both ends (where `$` also matches just before one final newline), with
`.*` unable to cross a newline; returns the captured prefix group. -/
def parseRemote (r : List Char) : Option (List Char) :=
  let r2 := if r.getLast? = some '\n' then r.dropLast else r
  if ("https://".data).isPrefixOf r2 && (".git".data).isSuffixOf r2 then
    let mid := ((((r2.drop 8).dropLast).dropLast).dropLast).dropLast
    if mid.contains '\n' then none else some mid
  else none

/-- Per-repo derivation step of `main`'s loop: a matching remote yields
the clone path `os.path.join("src", prefix)`; a non-matching remote
yields `none` (error reported, no clone attempted, next repo). -/
def repoStep (remote : List Char) : Option (List Char) :=
  (parseRemote remote).map (fun p => pyJoin ("src".data) p)

/-- `main`'s repository loop considers every configured repo in order;
a failed derivation never aborts the loop. -/
def mainRepoLoop (remotes : List (List Char)) : List (Option (List Char)) :=
  remotes.map repoStep

/-- After the loop `main` falls off the end, returning Python `None`
whatever per-repo errors occurred. -/
def mainLoopReturn (_remotes : List (List Char)) : Option Int :=
  none

/-- `sys.exit(main())`: `None` exits with status 0, an integer with that
status. -/
def exitStatus : Option Int → Int
  | none => 0
  | some n => n

/-- The environment facts the module-level preflight depends on:
whether `pip`/`pip3` resolve on PATH, the outcome of
`subprocess.check_output([sys.executable, "-m", "pip", "freeze"])`
(`none` = the subprocess exits non-zero and `check_output` raises),
and whether `go` resolves on PATH. -/
structure PreflightEnv where
  pip_on_path : Bool
  pip_freeze : Option (List (List Char))
  go_on_path : Bool
deriving DecidableEq

/-- Remediation message appended when `pip`/`pip3` are missing. -/
def pipMsg : List Char :=
  "Install pip so you can install PyYAML. https://pip.pypa.io/en/stable/installing".data

/-- Remediation message appended when PyYAML is not installed. -/
def yamlMsg : List Char :=
  "Please ensure the PyYAML package is installed; see https://pypi.org/project/PyYAML".data

/-- Remediation message appended when `go` is missing. -/
def goMsg : List Char :=
  "Go must be installed. See https://golang.org/doc/install".data

/-- The module-level preflight: build `error_msgs`.  The pip-freeze
tokens are mapped through `r.split("==")[0]` to get package names.  If
the freeze subprocess fails, `check_output` raises and the uncaught
exception aborts the script before the PyYAML and go checks run
(modelled as `Except.error ()`). -/
def collectErrorMsgs (e : PreflightEnv) : Except Unit (List (List Char)) :=
  let m1 : List (List Char) := if e.pip_on_path then [] else [pipMsg]
  match e.pip_freeze with
  | none => Except.error ()
  | some tokens =>
    let installed := tokens.map (fun t => (pySplit '=' ['='] t).headD [])
    let m2 : List (List Char) := if installed.contains ("PyYAML".data) then [] else [yamlMsg]
    let m3 : List (List Char) := if e.go_on_path then [] else [goMsg]
    Except.ok (m1 ++ m2 ++ m3)

/-- How a run starts: an uncaught exception during the module-level
checks, an early exit from `main` printing the collected messages and
returning `-2`, or falling through to argument parsing and the rest of
`main`. -/
inductive RunOutcome where
  | importCrash : RunOutcome
  | preflightExit (printed : List (List Char)) (ret : Int) : RunOutcome
  | continueRun : RunOutcome
deriving DecidableEq

/-- Lines 177–180 of the script: at entry to `main`, a non-empty
`error_msgs` prints every message and returns `-2` before any argument
parsing, configuration loading, repository or file work. -/
def mainEntry (e : PreflightEnv) : RunOutcome :=
  match collectErrorMsgs e with
  | Except.error _ => RunOutcome.importCrash
  | Except.ok [] => RunOutcome.continueRun
  | Except.ok (m :: ms) => RunOutcome.preflightExit (m :: ms) (-2)

theorem splitFirst_eq (c : Char) :
    ∀ l b a, splitFirst c l = some (b, a) → l = b ++ c :: a := by
  intro l
  induction l with
  | nil => intro b a h; simp [splitFirst] at h
  | cons x xs ih =>
    intro b a h
    by_cases hx : x = c
    · simp only [splitFirst, if_pos hx, Option.some.injEq, Prod.mk.injEq] at h
      rw [← h.1, ← h.2, hx]
      rfl
    · simp only [splitFirst, if_neg hx, Option.map_eq_some'] at h
      obtain ⟨p, hp, hpe⟩ := h
      rw [Prod.mk.injEq] at hpe
      have := ih p.1 p.2 (by rw [← hp])
      rw [← hpe.1, ← hpe.2, this]
      rfl

theorem splitFirst_not_mem (c : Char) :
    ∀ l b a, splitFirst c l = some (b, a) → c ∉ b := by
  intro l
  induction l with
  | nil => intro b a h; simp [splitFirst] at h
  | cons x xs ih =>
    intro b a h
    by_cases hx : x = c
    · simp only [splitFirst, if_pos hx, Option.some.injEq, Prod.mk.injEq] at h
      rw [← h.1]
      exact List.not_mem_nil c
    · simp only [splitFirst, if_neg hx, Option.map_eq_some'] at h
      obtain ⟨p, hp, hpe⟩ := h
      rw [Prod.mk.injEq] at hpe
      rw [← hpe.1]
      intro hmem
      rcases List.mem_cons.mp hmem with h1 | h1
      · exact hx h1.symm
      · exact ih p.1 p.2 (by rw [← hp]) h1

theorem splitFirst_app (c : Char) :
    ∀ b a, c ∉ b → splitFirst c (b ++ c :: a) = some (b, a) := by
  intro b
  induction b with
  | nil => intro a _; simp [splitFirst]
  | cons x xs ih =>
    intro a h
    have hx : ¬ x = c := fun he => h (by rw [he]; exact List.mem_cons_self c xs)
    have hxs : c ∉ xs := fun hm => h (List.mem_cons_of_mem x hm)
    simp [splitFirst, hx, ih a hxs]

theorem splitLast_eq (c : Char) :
    ∀ l b a, splitLast c l = some (b, a) → l = b ++ c :: a := by
  intro l
  induction l with
  | nil => intro b a h; simp [splitLast] at h
  | cons x xs ih =>
    intro b a h
    rw [splitLast] at h
    cases hr : splitLast c xs with
    | some p =>
      rw [hr] at h
      simp only [Option.some.injEq, Prod.mk.injEq] at h
      have := ih p.1 p.2 (by rw [← hr])
      rw [← h.1, ← h.2, this]
      rfl
    | none =>
      rw [hr] at h
      by_cases hx : x = c
      · simp only [if_pos hx, Option.some.injEq, Prod.mk.injEq] at h
        rw [← h.1, ← h.2, hx]
        rfl
      · simp [if_neg hx] at h

theorem splitLast_none (c : Char) :
    ∀ l, splitLast c l = none → c ∉ l := by
  intro l
  induction l with
  | nil => intro _; exact List.not_mem_nil c
  | cons x xs ih =>
    intro h
    rw [splitLast] at h
    cases hr : splitLast c xs with
    | some p => rw [hr] at h; exact Option.noConfusion h
    | none =>
      rw [hr] at h
      by_cases hx : x = c
      · rw [if_pos hx] at h; exact Option.noConfusion h
      · intro hmem
        rcases List.mem_cons.mp hmem with h1 | h1
        · exact hx h1.symm
        · exact ih hr h1

theorem splitLast_not_mem (c : Char) :
    ∀ l b a, splitLast c l = some (b, a) → c ∉ a := by
  intro l
  induction l with
  | nil => intro b a h; simp [splitLast] at h
  | cons x xs ih =>
    intro b a h
    rw [splitLast] at h
    cases hr : splitLast c xs with
    | some p =>
      rw [hr] at h
      simp only [Option.some.injEq, Prod.mk.injEq] at h
      rw [← h.2]
      exact ih p.1 p.2 (by rw [← hr])
    | none =>
      rw [hr] at h
      by_cases hx : x = c
      · simp only [if_pos hx, Option.some.injEq, Prod.mk.injEq] at h
        rw [← h.2]
        exact splitLast_none c xs hr
      · simp [if_neg hx] at h

theorem splitLast_app (c : Char) :
    ∀ b a, c ∉ a → splitLast c (b ++ c :: a) = some (b, a) := by
  intro b
  induction b with
  | nil =>
    intro a h
    have hn : splitLast c a = none := by
      cases hr : splitLast c a with
      | none => rfl
      | some p =>
        have := splitLast_eq c a p.1 p.2 (by rw [← hr])
        exact absurd (this ▸ List.mem_append_right p.1 (List.mem_cons_self c p.2)) h
    simp [splitLast, hn]
  | cons x xs ih =>
    intro a h
    rw [List.cons_append, splitLast, ih a h]

theorem tryStartG_eq :
    ∀ ys t r, tryStartG ys = some (t, r) → ys = '(' :: (t ++ ')' :: r) := by
  intro ys t r h
  unfold tryStartG at h
  split at h
  · rename_i zs
    rw [splitLast_eq ')' zs t r h]
  · exact Option.noConfusion h

theorem tryStartL_eq :
    ∀ ys t r, tryStartL ys = some (t, r) → ys = '(' :: (t ++ ')' :: r) := by
  intro ys t r h
  unfold tryStartL at h
  split at h
  · rename_i zs
    rw [splitFirst_eq ')' zs t r h]
  · exact Option.noConfusion h

theorem tryGreedy_eq :
    ∀ s a t r, tryGreedy s = some (a, t, r) →
      s = a ++ ']' :: '(' :: (t ++ ')' :: r) := by
  intro s
  induction s with
  | nil => intro a t r h; simp [tryGreedy] at h
  | cons c cs ih =>
    intro a t r h
    cases hr : tryGreedy cs with
    | some p =>
      obtain ⟨a1, t1, r1⟩ := p
      simp only [tryGreedy, hr] at h
      simp only [Option.some.injEq, Prod.mk.injEq] at h
      rw [← h.1, ← h.2.1, ← h.2.2, ih a1 t1 r1 hr]
      rfl
    | none =>
      simp only [tryGreedy, hr] at h
      by_cases hc : c = ']'
      · rw [if_pos hc] at h
        cases hst : tryStartG cs with
        | some q =>
          obtain ⟨t1, r1⟩ := q
          rw [hst] at h
          simp only [Option.some.injEq, Prod.mk.injEq] at h
          rw [← h.1, ← h.2.1, ← h.2.2, hc, tryStartG_eq cs t1 r1 hst]
          rfl
        | none => rw [hst] at h; exact Option.noConfusion h
      · rw [if_neg hc] at h
        exact Option.noConfusion h

theorem tryLazy_eq :
    ∀ s a t r, tryLazy s = some (a, t, r) →
      s = a ++ ']' :: '(' :: (t ++ ')' :: r) := by
  intro s
  induction s with
  | nil => intro a t r h; simp [tryLazy] at h
  | cons c cs ih =>
    intro a t r h
    cases hr : tryLazy cs with
    | some p =>
      obtain ⟨a1, t1, r1⟩ := p
      simp only [tryLazy, hr] at h
      simp only [Option.some.injEq, Prod.mk.injEq] at h
      rw [← h.1, ← h.2.1, ← h.2.2, ih a1 t1 r1 hr]
      rfl
    | none =>
      simp only [tryLazy, hr] at h
      by_cases hc : c = ']'
      · rw [if_pos hc] at h
        cases hst : tryStartL cs with
        | some q =>
          obtain ⟨t1, r1⟩ := q
          rw [hst] at h
          simp only [Option.some.injEq, Prod.mk.injEq] at h
          rw [← h.1, ← h.2.1, ← h.2.2, hc, tryStartL_eq cs t1 r1 hst]
          rfl
        | none => rw [hst] at h; exact Option.noConfusion h
      · rw [if_neg hc] at h
        exact Option.noConfusion h

theorem isPrefixOf_self_app (p : List Char) :
    ∀ q, p.isPrefixOf (p ++ q) = true := by
  induction p with
  | nil => intro q; simp [List.isPrefixOf]
  | cons a as ih => intro q; simp [List.isPrefixOf, ih]

theorem occursIn_app (p : List Char) :
    ∀ x y, occursIn p (x ++ (p ++ y)) = true := by
  intro x
  induction x with
  | nil =>
    intro y
    cases p with
    | nil =>
      cases y with
      | nil => rfl
      | cons c cs => simp [occursIn, List.isPrefixOf]
    | cons a as =>
      rw [List.nil_append, List.cons_append, occursIn]
      have := isPrefixOf_self_app (a :: as) y
      rw [List.cons_append] at this
      simp [this]
  | cons c cs ih =>
    intro y
    rw [List.cons_append, occursIn, ih y]
    simp

theorem splitAux_skip (s0 : Char) (sr : List Char) :
    ∀ xs r, splitAux s0 sr (xs ++ r) xs.length = splitAux s0 sr r 0 := by
  intro xs
  induction xs with
  | nil => intro r; rfl
  | cons x xs ih =>
    intro r
    rw [List.cons_append, List.length_cons, splitAux, ih r]

theorem pySplit_sep_app (s0 : Char) (sr : List Char) :
    ∀ r, pySplit s0 sr ((s0 :: sr) ++ r) = [] :: pySplit s0 sr r := by
  intro r
  show splitAux s0 sr ((s0 :: sr) ++ r) 0 = [] :: splitAux s0 sr r 0
  rw [List.cons_append, splitAux]
  have hp : (s0 :: sr).isPrefixOf (s0 :: (sr ++ r)) = true := by
    have := isPrefixOf_self_app (s0 :: sr) r
    rwa [List.cons_append] at this
  rw [if_pos hp, splitAux_skip s0 sr sr r]

theorem pySplit_no_occur (s0 : Char) (sr : List Char) :
    ∀ l, occursIn (s0 :: sr) l = false → pySplit s0 sr l = [l] := by
  intro l
  induction l with
  | nil => intro _; rfl
  | cons c cs ih =>
    intro h
    rw [occursIn, Bool.or_eq_false_iff] at h
    show splitAux s0 sr (c :: cs) 0 = [c :: cs]
    rw [splitAux, if_neg (by rw [h.1]; exact Bool.false_ne_true)]
    have := ih h.2
    rw [show splitAux s0 sr cs 0 = pySplit s0 sr cs from rfl, this]

theorem map_self_of_id {α : Type} (f : α → α) :
    ∀ l : List α, (∀ x ∈ l, f x = x) → l.map f = l := by
  intro l
  induction l with
  | nil => intro _; rfl
  | cons a as ih =>
    intro h
    rw [List.map_cons, h a (List.mem_cons_self a as),
      ih (fun x hx => h x (List.mem_cons_of_mem a hx))]

theorem splitLines_ne_nil : ∀ l, splitLines l ≠ [] := by
  intro l
  induction l with
  | nil => simp [splitLines]
  | cons c cs ih =>
    by_cases hc : c = '\n'
    · simp [splitLines, hc]
    · rw [splitLines, if_neg hc]
      cases h : splitLines cs with
      | nil => exact absurd h ih
      | cons g gs => simp

theorem joinLines_splitLines : ∀ l, joinLines (splitLines l) = l := by
  intro l
  induction l with
  | nil => rfl
  | cons c cs ih =>
    by_cases hc : c = '\n'
    · subst hc
      rw [show splitLines ('\n' :: cs) = [] :: splitLines cs by simp [splitLines]]
      cases h : splitLines cs with
      | nil => exact absurd h (splitLines_ne_nil cs)
      | cons g gs =>
        rw [h] at ih
        rw [show joinLines ([] :: g :: gs) = '\n' :: joinLines (g :: gs) from rfl, ih]
    · rw [show splitLines (c :: cs) = (match splitLines cs with
        | g :: gs => (c :: g) :: gs
        | [] => [[c]]) by rw [splitLines, if_neg hc]]
      cases h : splitLines cs with
      | nil => exact absurd h (splitLines_ne_nil cs)
      | cons g gs =>
        rw [h] at ih
        cases gs with
        | nil =>
          rw [show joinLines [g] = g from rfl] at ih
          rw [show joinLines [c :: g] = c :: g from rfl, ih]
        | cons g2 gs2 =>
          rw [show joinLines (g :: g2 :: gs2) = g ++ '\n' :: joinLines (g2 :: gs2) from
            rfl] at ih
          rw [show joinLines ((c :: g) :: g2 :: gs2) =
            (c :: g) ++ '\n' :: joinLines (g2 :: gs2) from rfl, List.cons_append, ih]

theorem stripH1_id (l : List Char) (h1 : startsHeading l = false)
    (h2 : startsNewline l = false) : stripH1 l = l := by
  unfold stripH1
  split
  · simp [startsHeading] at h1
  · simp [startsNewline] at h2
  · rfl

theorem seqOpt_map_some (f : List Char → Option (List Char)) :
    ∀ ls, (∀ x ∈ ls, f x = some x) → seqOpt (ls.map f) = some ls := by
  intro ls
  induction ls with
  | nil => intro _; rfl
  | cons a as ih =>
    intro h
    rw [List.map_cons, seqOpt, h a (List.mem_cons_self a as),
      ih (fun x hx => h x (List.mem_cons_of_mem a hx))]
    rfl

theorem analyzeLinks_safe (rp sp a t : List Char) (h : safeTarget t = true) :
    analyzeLinks rp sp a t = '[' :: a ++ ']' :: '(' :: t ++ [')'] := by
  simp [analyzeLinks, h]

theorem analyzeKubectl_no_trigger (a t : List Char)
    (h : ((".md".data).isSuffixOf t && ("kubectl".data).isPrefixOf t) = false) :
    analyzeKubectl a t = some ('[' :: a ++ ']' :: '(' :: t ++ [')']) := by
  simp only [analyzeKubectl, h, Bool.false_eq_true, if_false]

theorem subLinksLine_id (rp sp : List Char) :
    ∀ fuel l, (∀ p ∈ lineMatchesG fuel l, safeTarget p.2 = true) →
      subLinksLine rp sp fuel l = l := by
  intro fuel
  induction fuel with
  | zero => intro l _; rfl
  | succ f ih =>
    intro l h
    cases l with
    | nil => rfl
    | cons c cs =>
      by_cases hc : c = '['
      · subst hc
        cases htry : tryGreedy cs with
        | none =>
          have h2 : ∀ p ∈ lineMatchesG f cs, safeTarget p.2 = true := by
            intro p hp
            apply h
            simp [lineMatchesG, htry, hp]
          simp [subLinksLine, htry, ih cs h2]
        | some x =>
          obtain ⟨a, t, r⟩ := x
          have hmem : ((a, t) : List Char × List Char) ∈
              lineMatchesG (f + 1) ('[' :: cs) := by
            simp [lineMatchesG, htry]
          have hsafe : safeTarget t = true := h (a, t) hmem
          have h2 : ∀ p ∈ lineMatchesG f r, safeTarget p.2 = true := by
            intro p hp
            apply h
            simp only [lineMatchesG, if_pos rfl, htry]
            exact List.mem_cons_of_mem _ hp
          rw [show subLinksLine rp sp (f + 1) ('[' :: cs) =
            (if ('[' : Char) = '[' then
              match tryGreedy cs with
              | some (a, t, r) => analyzeLinks rp sp a t ++ subLinksLine rp sp f r
              | none => '[' :: subLinksLine rp sp f cs
            else '[' :: subLinksLine rp sp f cs) from rfl, if_pos rfl, htry]
          show analyzeLinks rp sp a t ++ subLinksLine rp sp f r = '[' :: cs
          rw [ih r h2, analyzeLinks_safe rp sp a t hsafe, tryGreedy_eq cs a t r htry]
          simp
      · have h2 : ∀ p ∈ lineMatchesG f cs, safeTarget p.2 = true := by
          intro p hp
          apply h
          simp [lineMatchesG, hc, hp]
        simp [subLinksLine, hc, ih cs h2]

theorem subKubectlLine_id :
    ∀ fuel l, (∀ p ∈ lineMatchesL fuel l,
        ((".md".data).isSuffixOf p.2 && ("kubectl".data).isPrefixOf p.2) = false) →
      subKubectlLine fuel l = some l := by
  intro fuel
  induction fuel with
  | zero => intro l _; rfl
  | succ f ih =>
    intro l h
    cases l with
    | nil => rfl
    | cons c cs =>
      by_cases hc : c = '['
      · subst hc
        cases htry : tryLazy cs with
        | none =>
          have h2 : ∀ p ∈ lineMatchesL f cs,
              ((".md".data).isSuffixOf p.2 && ("kubectl".data).isPrefixOf p.2) = false := by
            intro p hp
            apply h
            simp [lineMatchesL, htry, hp]
          simp [subKubectlLine, htry, ih cs h2]
        | some x =>
          obtain ⟨a, t, r⟩ := x
          have hmem : ((a, t) : List Char × List Char) ∈
              lineMatchesL (f + 1) ('[' :: cs) := by
            simp [lineMatchesL, htry]
          have hfalse := h (a, t) hmem
          have h2 : ∀ p ∈ lineMatchesL f r,
              ((".md".data).isSuffixOf p.2 && ("kubectl".data).isPrefixOf p.2) = false := by
            intro p hp
            apply h
            simp only [lineMatchesL, if_pos rfl, htry]
            exact List.mem_cons_of_mem _ hp
          rw [show subKubectlLine (f + 1) ('[' :: cs) =
            (if ('[' : Char) = '[' then
              match tryLazy cs with
              | some (a, t, r) =>
                match analyzeKubectl a t, subKubectlLine f r with
                | some repl, some rest => some (repl ++ rest)
                | _, _ => none
              | none => (subKubectlLine f cs).map (fun rest => '[' :: rest)
            else (subKubectlLine f cs).map (fun rest => '[' :: rest)) from rfl,
            if_pos rfl, htry]
          show (match analyzeKubectl a t, subKubectlLine f r with
            | some repl, some rest => some (repl ++ rest)
            | _, _ => none) = some ('[' :: cs)
          rw [ih r h2, analyzeKubectl_no_trigger a t hfalse]
          show some (('[' :: a ++ ']' :: '(' :: t ++ [')']) ++ r) = some ('[' :: cs)
          rw [tryLazy_eq cs a t r htry]
          simp
      · have h2 : ∀ p ∈ lineMatchesL f cs,
            ((".md".data).isSuffixOf p.2 && ("kubectl".data).isPrefixOf p.2) = false := by
          intro p hp
          apply h
          simp [lineMatchesL, hc, hp]
        simp [subKubectlLine, hc, ih cs h2]

theorem processLinks_id (content rp sp : List Char)
    (hm : ∀ p ∈ contentMatchesG content, safeTarget p.2 = true)
    (h1 : startsHeading content = false) (h2 : startsNewline content = false) :
    processLinks content rp sp = content := by
  have hl : ∀ ln ∈ splitLines content, subLinksLine rp sp ln.length ln = ln := by
    intro ln hln
    apply subLinksLine_id
    intro p hp
    apply hm
    rw [contentMatchesG, List.mem_flatMap]
    exact ⟨ln, hln, hp⟩
  rw [processLinks, map_self_of_id _ _ hl, joinLines_splitLines]
  exact stripH1_id content h1 h2

theorem processKubectlLinks_id (content : List Char)
    (hm : ∀ p ∈ contentMatchesL content,
      ((".md".data).isSuffixOf p.2 && ("kubectl".data).isPrefixOf p.2) = false) :
    processKubectlLinks content = some content := by
  have hl : ∀ ln ∈ splitLines content, subKubectlLine ln.length ln = some ln := by
    intro ln hln
    apply subKubectlLine_id
    intro p hp
    apply hm
    rw [contentMatchesL, List.mem_flatMap]
    exact ⟨ln, hln, hp⟩
  rw [processKubectlLinks, seqOpt_map_some _ _ hl, Option.map_some',
    joinLines_splitLines]

theorem pyJoin_std (a b : List Char) (ha : ¬ (a = [] ∨ a.getLast? = some '/'))
    (hb : ¬ b.head? = some '/') : pyJoin a b = a ++ '/' :: b := by
  rw [pyJoin, if_neg hb, if_neg ha]

theorem pyJoin_dir (a b : List Char) (ha : a.getLast? = some '/')
    (hb : ¬ b.head? = some '/') : pyJoin a b = a ++ b := by
  rw [pyJoin, if_neg hb, if_pos (Or.inr ha)]

theorem pyBasename_no_slash (p : List Char) : ('/' : Char) ∉ pyBasename p := by
  unfold pyBasename
  cases hs : splitLast '/' p with
  | none => exact splitLast_none '/' p hs
  | some q => exact splitLast_not_mem '/' p q.1 q.2 (by rw [← hs])

theorem dropSlashesRight_app (b : List Char) (c : Char) (hc : ¬ c = '/') :
    dropSlashesRight ((b ++ [c]) ++ ['/']) = b ++ [c] := by
  unfold dropSlashesRight
  rw [List.reverse_append, List.reverse_append]
  have hcb : (c == '/') = false := by simp [hc]
  simp [List.dropWhile, hcb]

theorem pyDirname_app (b rl : List Char) (c : Char) (hc : ¬ c = '/')
    (hrl : ('/' : Char) ∉ rl) :
    pyDirname ((b ++ [c]) ++ '/' :: rl) = b ++ [c] := by
  unfold pyDirname
  rw [splitLast_app '/' (b ++ [c]) rl hrl]
  show (if ((b ++ [c]) ++ ['/']).all (fun x => x == '/') then (b ++ [c]) ++ ['/']
    else dropSlashesRight ((b ++ [c]) ++ ['/'])) = b ++ [c]
  have hall : ((b ++ [c]) ++ ['/']).all (fun x => x == '/') = false := by
    simp only [List.all_eq_false]
    exact ⟨c, by simp, by simp [hc]⟩
  rw [if_neg (by rw [hall]; exact Bool.false_ne_true)]
  exact dropSlashesRight_app b c hc

/-- Claim C1 (amended): in `process_kubectl_links`, only the URL is
tested — a link whose URL fails `.md`-suffix or `kubectl`-prefix is left
unchanged; when the URL satisfies both, the rewrite uses the second
field of the link text split on `"kubectl "` (equal to the text minus
the leading `"kubectl "` when the text starts with it and contains no
further occurrence), and a link text containing no `"kubectl "` at all
makes the transform raise `IndexError` (modelled as `none`) instead of
leaving the link unchanged. -/
theorem kubectl_link_rewrite_cases :
    ∀ a t : List Char,
      (((".md".data).isSuffixOf t && ("kubectl".data).isPrefixOf t) = false →
        analyzeKubectl a t = some ('[' :: a ++ ']' :: '(' :: t ++ [')'])) ∧
      (((".md".data).isSuffixOf t && ("kubectl".data).isPrefixOf t) = true →
        ∀ r, a = ("kubectl ".data) ++ r → occursIn ("kubectl ".data) r = false →
          analyzeKubectl a t =
            some ('[' :: a ++ ']' :: '(' :: (kubectlCmds ++ r) ++ [')'])) ∧
      (((".md".data).isSuffixOf t && ("kubectl".data).isPrefixOf t) = true →
        occursIn ("kubectl ".data) a = false → analyzeKubectl a t = none) := by
  intro a t
  refine ⟨fun h1 => analyzeKubectl_no_trigger a t h1, fun h1 r ha hocc => ?_, fun h1 hocc => ?_⟩
  · subst ha
    unfold analyzeKubectl
    rw [if_pos h1]
    have hx : pySplit 'k' ("ubectl ".data) (("kubectl ".data) ++ r) = [[], r] := by
      have h2 : occursIn ('k' :: "ubectl ".data) r = false := hocc
      rw [show ("kubectl ".data : List Char) = 'k' :: "ubectl ".data from rfl,
        pySplit_sep_app 'k' ("ubectl ".data) r, pySplit_no_occur 'k' ("ubectl ".data) r h2]
    rw [hx]
  · unfold analyzeKubectl
    rw [if_pos h1]
    have h2 : occursIn ('k' :: "ubectl ".data) a = false := hocc
    rw [show pySplit 'k' ("ubectl ".data) a = [a] from
      pySplit_no_occur 'k' ("ubectl ".data) a h2]

/-- Witness for C1's amended theorem at concrete links. -/
theorem kubectl_link_rewrite_cases_witness :
    analyzeKubectl ("x".data) ("other.txt".data) =
      some ('[' :: "x".data ++ ']' :: '(' :: "other.txt".data ++ [')']) ∧
    analyzeKubectl ("kubectl ".data ++ "annotate".data) ("kubectl_annotate.md".data) =
      some ('[' :: ("kubectl ".data ++ "annotate".data) ++ ']' :: '(' ::
        (kubectlCmds ++ "annotate".data) ++ [')']) ∧
    analyzeKubectl ("foo".data) ("kubectl_x.md".data) = none :=
  ⟨(kubectl_link_rewrite_cases ("x".data) ("other.txt".data)).1 (by decide),
   (kubectl_link_rewrite_cases _ _).2.1 (by decide) ("annotate".data) rfl (by decide),
   (kubectl_link_rewrite_cases ("foo".data) ("kubectl_x.md".data)).2.2 (by decide) (by decide)⟩

/-- Counterexample to C1 as stated: a link whose text does not start
with `"kubectl "` (it starts with `"see "`) but whose URL ends in `.md`
and starts with `kubectl` is NOT left unchanged — it is rewritten. -/
theorem kubectl_text_condition_counterexample :
    processKubectlLinks ("[see kubectl annotate](kubectl_annotate.md)".data) =
      some ("[see kubectl annotate](/docs/reference/generated/kubectl/kubectl-commands#annotate)".data) ∧
    ¬ processKubectlLinks ("[see kubectl annotate](kubectl_annotate.md)".data) =
      some ("[see kubectl annotate](kubectl_annotate.md)".data) :=
  ⟨by decide, by decide⟩

/-- Claim C2: the absolutize per-link rewrite — URLs starting with
`https://`, `mailto:` or `#` are unchanged; a URL starting with `/`
becomes `remote_prefix + "/" + url-without-slash`; any other URL
becomes `remote_prefix + "/" + sub_path + "/" + url`. -/
theorem absolutize_link_cases :
    ∀ rp sp a t : List Char,
      (safeTarget t = true →
        analyzeLinks rp sp a t = '[' :: a ++ ']' :: '(' :: t ++ [')']) ∧
      (safeTarget t = false → (("/".data).isPrefixOf t) = true →
        analyzeLinks rp sp a t =
          '[' :: a ++ ']' :: '(' :: (rp ++ '/' :: t.drop 1) ++ [')']) ∧
      (safeTarget t = false → (("/".data).isPrefixOf t) = false →
        analyzeLinks rp sp a t =
          '[' :: a ++ ']' :: '(' :: (rp ++ '/' :: (sp ++ '/' :: t)) ++ [')']) := by
  intro rp sp a t
  refine ⟨fun h1 => ?_, fun h1 h2 => ?_, fun h1 h2 => ?_⟩
  · simp [analyzeLinks, h1]
  · simp [analyzeLinks, h1, h2]
  · simp [analyzeLinks, h1, h2]

/-- Witness for C2 at concrete links. -/
theorem absolutize_link_cases_witness :
    analyzeLinks ("R".data) ("S".data) ("a".data) ("#x".data) =
      '[' :: "a".data ++ ']' :: '(' :: "#x".data ++ [')'] ∧
    analyzeLinks ("R".data) ("S".data) ("a".data) ("/abs/p.md".data) =
      '[' :: "a".data ++ ']' :: '(' :: ("R".data ++ '/' :: ("/abs/p.md".data).drop 1) ++ [')'] ∧
    analyzeLinks ("R".data) ("S".data) ("a".data) ("rel.md".data) =
      '[' :: "a".data ++ ']' :: '(' :: ("R".data ++ '/' :: ("S".data ++ '/' :: "rel.md".data)) ++ [')'] :=
  ⟨(absolutize_link_cases ("R".data) ("S".data) ("a".data) ("#x".data)).1 (by decide),
   (absolutize_link_cases ("R".data) ("S".data) ("a".data) ("/abs/p.md".data)).2.1
     (by decide) (by decide),
   (absolutize_link_cases ("R".data) ("S".data) ("a".data) ("rel.md".data)).2.2
     (by decide) (by decide)⟩

/-- Claim C3: after link rewriting, `process_links` removes exactly one
leading line, and only when that first line is a `# ` heading
(terminated by a newline) or is blank; otherwise the content's start is
unchanged; the line removed is returned verbatim, so a second
qualifying line is never touched.  The last conjunct records that the
strip runs after the link pass inside `process_links`. -/
theorem leading_line_strip_cases :
    (∀ first rest : List Char, ('\n' : Char) ∉ first →
      stripH1 ('#' :: ' ' :: (first ++ '\n' :: rest)) = rest) ∧
    (∀ rest : List Char, stripH1 ('\n' :: rest) = rest) ∧
    (∀ l, startsHeading l = false → startsNewline l = false → stripH1 l = l) ∧
    (∀ content rp sp, processLinks content rp sp =
      stripH1 (joinLines ((splitLines content).map
        (fun ln => subLinksLine rp sp ln.length ln)))) := by
  refine ⟨fun first rest h => ?_, fun rest => rfl, fun l => stripH1_id l, fun c rp sp => rfl⟩
  show (match splitFirst '\n' (first ++ '\n' :: rest) with
    | some p => p.2
    | none => '#' :: ' ' :: (first ++ '\n' :: rest)) = rest
  rw [splitFirst_app '\n' first rest h]

/-- Witness for C3 at concrete contents. -/
theorem leading_line_strip_cases_witness :
    stripH1 ('#' :: ' ' :: ("Title".data ++ '\n' :: "Body".data)) = "Body".data ∧
    stripH1 ('\n' :: "Body".data) = "Body".data ∧
    stripH1 ("Body".data) = "Body".data :=
  ⟨leading_line_strip_cases.1 ("Title".data) ("Body".data) (by decide),
   leading_line_strip_cases.2.1 ("Body".data),
   leading_line_strip_cases.2.2.1 ("Body".data) (by decide) (by decide)⟩

/-- Claim C4 (amended): when the module-level `pip freeze` subprocess
succeeds, all three preflight checks contribute independently to
`error_msgs`, and a non-empty list makes `main` print every collected
message and return `-2` (non-zero) before any argument parsing,
configuration, repository or file work.  (When that subprocess fails —
e.g. the pip module is absent — `check_output` raises at import time
instead; see the counterexample.) -/
theorem preflight_error_collection :
    ∀ (e : PreflightEnv) (tokens msgs : List (List Char)),
      e.pip_freeze = some tokens → collectErrorMsgs e = Except.ok msgs →
      ((e.pip_on_path = false → pipMsg ∈ msgs) ∧
       ((tokens.map (fun t => (pySplit '=' ['='] t).headD [])).contains ("PyYAML".data)
          = false → yamlMsg ∈ msgs) ∧
       (e.go_on_path = false → goMsg ∈ msgs) ∧
       (msgs ≠ [] →
         mainEntry e = RunOutcome.preflightExit msgs (-2) ∧ (-2 : Int) ≠ 0) ∧
       (msgs = [] → mainEntry e = RunOutcome.continueRun)) := by
  intro e tokens msgs hf hok
  have hmsgs : msgs =
      (if e.pip_on_path then [] else [pipMsg]) ++
      ((if (tokens.map (fun t => (pySplit '=' ['='] t).headD [])).contains ("PyYAML".data)
        then [] else [yamlMsg]) ++
       (if e.go_on_path then [] else [goMsg])) := by
    have h2 : collectErrorMsgs e = Except.ok
        ((if e.pip_on_path then [] else [pipMsg]) ++
         ((if (tokens.map (fun t => (pySplit '=' ['='] t).headD [])).contains ("PyYAML".data)
           then [] else [yamlMsg]) ++
          (if e.go_on_path then [] else [goMsg]))) := by
      rw [collectErrorMsgs, hf]
      simp [List.append_assoc]
    rw [h2] at hok
    exact ((Except.ok.injEq _ _).mp hok).symm
  refine ⟨fun hp => ?_, fun hy => ?_, fun hg => ?_, fun hne => ?_, fun hnil => ?_⟩
  · rw [hmsgs, hp]
    simp
  · rw [hmsgs, hy]
    simp
  · rw [hmsgs, hg]
    simp
  · constructor
    · rw [mainEntry, hok]
      cases msgs with
      | nil => exact absurd rfl hne
      | cons m ms => rfl
    · decide
  · rw [mainEntry, hok, hnil]

/-- Witness for C4's amended theorem: with pip and go missing (and an
empty but successful freeze), all three messages are collected and
`main` exits early with `-2`. -/
theorem preflight_error_collection_witness :
    mainEntry ⟨false, some [], false⟩ =
      RunOutcome.preflightExit [pipMsg, yamlMsg, goMsg] (-2) :=
  (((preflight_error_collection ⟨false, some [], false⟩ [] [pipMsg, yamlMsg, goMsg]
    rfl rfl).2.2.2.1) (by decide)).1

/-- Counterexample to C4 as stated: in an environment where the
unguarded `pip freeze` subprocess fails (pip absent — exactly the case
the first check reports), the script crashes with an uncaught exception
at import time: the go check never runs and no collected message is
printed, contradicting "every prerequisite check is executed regardless"
and the claimed message-printing exit. -/
theorem preflight_crash_counterexample :
    collectErrorMsgs ⟨false, none, false⟩ = Except.error () ∧
    mainEntry ⟨false, none, false⟩ = RunOutcome.importCrash ∧
    ¬ mainEntry ⟨false, none, false⟩ =
      RunOutcome.preflightExit [pipMsg, yamlMsg, goMsg] (-2) :=
  ⟨rfl, rfl, by decide⟩

/-- Claim C5 (amended): a remote matching `^https://(?P<prefix>.*)\.git$`
yields the clone path `os.path.join("src", prefix)`, which equals
`"src/" + prefix` whenever the prefix does not itself start with `/`
(an absolute prefix discards the `src` component — see the
counterexample); a non-matching remote yields no clone and the loop
processes every repo and `main` still returns `None` (exit status 0). -/
theorem remote_derivation_and_loop :
    ∀ (remotes : List (List Char)) (remote p : List Char),
      (parseRemote remote = some p →
        repoStep remote = some (pyJoin ("src".data) p) ∧
        (¬ p.head? = some '/' → pyJoin ("src".data) p = "src/".data ++ p)) ∧
      (parseRemote remote = none → repoStep remote = none) ∧
      (mainRepoLoop remotes).length = remotes.length ∧
      exitStatus (mainLoopReturn remotes) = 0 := by
  intro remotes remote p
  refine ⟨fun h => ⟨?_, fun hp => ?_⟩, fun h => ?_, ?_, rfl⟩
  · rw [repoStep, h, Option.map_some']
  · rw [pyJoin_std ("src".data) p (by decide) hp]
    rfl
  · rw [repoStep, h, Option.map_none']
  · rw [mainRepoLoop, List.length_map]

/-- Witness for C5's amended theorem at a concrete remote. -/
theorem remote_derivation_and_loop_witness :
    repoStep ("https://github.com/o/r.git".data) =
      some (pyJoin ("src".data) ("github.com/o/r".data)) ∧
    pyJoin ("src".data) ("github.com/o/r".data) = "src/".data ++ "github.com/o/r".data ∧
    repoStep ("http://x.git".data) = none :=
  ⟨((remote_derivation_and_loop [] ("https://github.com/o/r.git".data)
      ("github.com/o/r".data)).1 (by decide)).1,
   ((remote_derivation_and_loop [] ("https://github.com/o/r.git".data)
      ("github.com/o/r".data)).1 (by decide)).2 (by decide),
   (remote_derivation_and_loop [] ("http://x.git".data) []).2.1 (by decide)⟩

/-- Counterexample to C5 as stated: the remote `https:///x.git` matches
the pattern with prefix `/x`, but `os.path.join("src", "/x")` is `/x`,
not `"src/" + "/x"`. -/
theorem remote_join_counterexample :
    parseRemote ("https:///x.git".data) = some ("/x".data) ∧
    repoStep ("https:///x.git".data) = some ("/x".data) ∧
    ¬ ("/x".data : List Char) = "src/".data ++ "/x".data :=
  ⟨by decide, by decide, by decide⟩

/-- Claim C6: the release string gets `".0"` appended exactly when its
length is four; otherwise it passes through unchanged. -/
theorem release_normalization :
    ∀ s : List Char,
      (s.length = 4 → k8sReleaseFix s = s ++ ".0".data) ∧
      (¬ s.length = 4 → k8sReleaseFix s = s) := by
  intro s
  exact ⟨fun h => by rw [k8sReleaseFix, if_pos h],
    fun h => by rw [k8sReleaseFix, if_neg h]⟩

/-- Witness for C6: `"1.17"` gains `".0"`, `"1.17.0"` is unchanged. -/
theorem release_normalization_witness :
    k8sReleaseFix ("1.17".data) = "1.17".data ++ ".0".data ∧
    k8sReleaseFix ("1.17.0".data) = "1.17.0".data :=
  ⟨(release_normalization ("1.17".data)).1 (by decide),
   (release_normalization ("1.17.0".data)).2 (by decide)⟩

/-- Claim C7: when the resolved destination (doc root joined with
`dst`) ends with `/`, the output path is that destination with the
source file's base name appended; otherwise it is exactly the resolved
destination, whatever the source file is called. -/
theorem destination_resolution :
    ∀ root dst srcFile : List Char,
      ((pyJoin root dst).getLast? = some '/' →
        resolveDst (pyJoin root dst) srcFile = pyJoin root dst ++ pyBasename srcFile) ∧
      (¬ (pyJoin root dst).getLast? = some '/' →
        resolveDst (pyJoin root dst) srcFile = pyJoin root dst) := by
  intro root dst srcFile
  constructor
  · intro h
    rw [resolveDst, if_pos h]
    apply pyJoin_dir _ _ h
    have hmem := pyBasename_no_slash srcFile
    intro hb
    cases hq : pyBasename srcFile with
    | nil => rw [hq] at hb; exact Option.noConfusion hb
    | cons y ys =>
      rw [hq] at hb hmem
      simp only [List.head?_cons, Option.some.injEq] at hb
      subst hb
      exact hmem (List.mem_cons_self _ _)
  · intro h
    rw [resolveDst, if_neg h]

/-- Witness for C7 at concrete paths. -/
theorem destination_resolution_witness :
    resolveDst (pyJoin ("/w".data) ("docs/".data)) ("/tmp/x/foo.md".data) =
      pyJoin ("/w".data) ("docs/".data) ++ pyBasename ("/tmp/x/foo.md".data) ∧
    resolveDst (pyJoin ("/w".data) ("docs/out.md".data)) ("/tmp/x/foo.md".data) =
      pyJoin ("/w".data) ("docs/out.md".data) :=
  ⟨(destination_resolution ("/w".data) ("docs/".data) ("/tmp/x/foo.md".data)).1 (by decide),
   (destination_resolution ("/w".data) ("docs/out.md".data) ("/tmp/x/foo.md".data)).2
     (by decide)⟩

/-- Claim C8 (amended): both transforms are pure functions of their
arguments (they are `def`s over the content string); each is the
identity once its trigger no longer holds — `process_links` returns
content unchanged when every matched URL already starts with
`https://`, `mailto:` or `#` and the first line is neither a `# `
heading nor blank, and `process_kubectl_links` returns content
unchanged when no matched URL both ends in `.md` and starts with
`kubectl`.  However, `process_kubectl_links` applied to its own output
is NOT always the identity (see the counterexample). -/
theorem link_transforms_no_trigger_id :
    (∀ content rp sp, (∀ p ∈ contentMatchesG content, safeTarget p.2 = true) →
      startsHeading content = false → startsNewline content = false →
      processLinks content rp sp = content) ∧
    (∀ content, (∀ p ∈ contentMatchesL content,
        ((".md".data).isSuffixOf p.2 && ("kubectl".data).isPrefixOf p.2) = false) →
      processKubectlLinks content = some content) :=
  ⟨processLinks_id, processKubectlLinks_id⟩

/-- Witness for C8's amended theorem at concrete contents. -/
theorem link_transforms_no_trigger_id_witness :
    processLinks ("see [a](https://e) x".data) ("R".data) ("S".data) =
      ("see [a](https://e) x".data) ∧
    processKubectlLinks ("see [a](nope.txt) x".data) =
      some ("see [a](nope.txt) x".data) :=
  ⟨link_transforms_no_trigger_id.1 ("see [a](https://e) x".data) ("R".data) ("S".data)
     (by decide) (by decide) (by decide),
   link_transforms_no_trigger_id.2 ("see [a](nope.txt) x".data) (by decide)⟩

/-- Counterexample to C8 as stated: `process_kubectl_links` is not
idempotent — on a link whose text contains `](`, the first pass emits a
new matching link that a second pass rewrites again. -/
theorem kubectl_not_idempotent_counterexample :
    ¬ (processKubectlLinks ("[kubectl a](kubectl.md](kubectl.md)".data)).bind
        processKubectlLinks =
      processKubectlLinks ("[kubectl a](kubectl.md](kubectl.md)".data) := by
  decide

/-- Claim C9: with `gen_absolute_links` set, `process_file` calls the
absolutize transform with `remote_prefix = repo_path + "/tree/master"`
and `sub_path = os.path.dirname(<glob match>)` — the full filesystem
dirname, which keeps the ephemeral working-directory prefix; hence
every page-relative URL it rewrites embeds the temporary working
directory in the output link. -/
theorem absolutize_subpath_workdir :
    ∀ (wd rpre rl content dst a t : List Char) (c : Char),
      ¬ c = '/' → wd ≠ [] → ¬ wd.getLast? = some '/' →
      ¬ (rpre ++ [c]).head? = some '/' → ¬ rl.head? = some '/' →
      ('/' : Char) ∉ rl →
      ("kubectl.md".data).isSuffixOf dst = false →
      safeTarget t = false → ("/".data).isPrefixOf t = false →
      (pyDirname (pyJoin (pyJoin wd (rpre ++ [c])) rl) = wd ++ '/' :: (rpre ++ [c]) ∧
       processFileContent (pyJoin (pyJoin wd (rpre ++ [c])) rl) dst (rpre ++ [c]) true
           content =
         some (processLinks content ((rpre ++ [c]) ++ "/tree/master".data)
           (wd ++ '/' :: (rpre ++ [c]))) ∧
       occursIn wd (analyzeLinks ((rpre ++ [c]) ++ "/tree/master".data)
         (wd ++ '/' :: (rpre ++ [c])) a t) = true) := by
  intro wd rpre rl content dst a t c hc hwd hwdE hrpH hrlH hrlS hdst hsafe hslash
  have ha1 : ¬ (wd = [] ∨ wd.getLast? = some '/') := by
    rintro (h | h)
    · exact hwd h
    · exact hwdE h
  have hj1 : pyJoin wd (rpre ++ [c]) = wd ++ '/' :: (rpre ++ [c]) :=
    pyJoin_std wd (rpre ++ [c]) ha1 hrpH
  have hshape : wd ++ '/' :: (rpre ++ [c]) = (wd ++ '/' :: rpre) ++ [c] := by
    simp
  have hlast : (wd ++ '/' :: (rpre ++ [c])).getLast? = some c := by
    have h3 : ∀ xs : List Char, (xs ++ [c]).getLast? = some c := by
      intro xs
      simp
    rw [hshape]
    exact h3 (wd ++ '/' :: rpre)
  have ha2 : ¬ ((wd ++ '/' :: (rpre ++ [c])) = [] ∨
      (wd ++ '/' :: (rpre ++ [c])).getLast? = some '/') := by
    rintro (h | h)
    · simpa using congrArg List.length h
    · rw [hlast] at h
      exact hc (Option.some.inj h)
  have hj2 : pyJoin (wd ++ '/' :: (rpre ++ [c])) rl =
      (wd ++ '/' :: (rpre ++ [c])) ++ '/' :: rl :=
    pyJoin_std _ rl ha2 hrlH
  have hdir : pyDirname (pyJoin (pyJoin wd (rpre ++ [c])) rl) =
      wd ++ '/' :: (rpre ++ [c]) := by
    rw [hj1, hj2, hshape, pyDirname_app (wd ++ '/' :: rpre) rl c hc hrlS]
  refine ⟨hdir, ?_, ?_⟩
  · have h2 : processFileContent (pyJoin (pyJoin wd (rpre ++ [c])) rl) dst
        (rpre ++ [c]) true content =
        some (processLinks content ((rpre ++ [c]) ++ "/tree/master".data)
          (pyDirname (pyJoin (pyJoin wd (rpre ++ [c])) rl))) := by
      simp only [processFileContent, if_true, hdst, Bool.false_eq_true, if_false]
    rw [h2, hdir]
  · have hform : analyzeLinks ((rpre ++ [c]) ++ "/tree/master".data)
        (wd ++ '/' :: (rpre ++ [c])) a t =
        ('[' :: a ++ ']' :: '(' :: ((rpre ++ [c]) ++ "/tree/master".data) ++ ['/'])
          ++ (wd ++ ('/' :: (rpre ++ [c]) ++ '/' :: t ++ [')'])) := by
      simp [analyzeLinks, hsafe, hslash, List.append_assoc]
    rw [hform]
    exact occursIn_app wd _ _

/-- Witness for C9 at a concrete working directory, repo path and
relative link. -/
theorem absolutize_subpath_workdir_witness :
    pyDirname (pyJoin (pyJoin ("/tmp/t1".data) ("src/rep".data ++ ['o'])) ("x.md".data)) =
      "/tmp/t1".data ++ '/' :: ("src/rep".data ++ ['o']) ∧
    processFileContent
        (pyJoin (pyJoin ("/tmp/t1".data) ("src/rep".data ++ ['o'])) ("x.md".data))
        ("/site/x.md".data) ("src/rep".data ++ ['o']) true ("[a](b.md)".data) =
      some (processLinks ("[a](b.md)".data)
        (("src/rep".data ++ ['o']) ++ "/tree/master".data)
        ("/tmp/t1".data ++ '/' :: ("src/rep".data ++ ['o']))) ∧
    occursIn ("/tmp/t1".data)
      (analyzeLinks (("src/rep".data ++ ['o']) ++ "/tree/master".data)
        ("/tmp/t1".data ++ '/' :: ("src/rep".data ++ ['o'])) ("a".data) ("b.md".data)) =
      true :=
  absolutize_subpath_workdir ("/tmp/t1".data) ("src/rep".data) ("x.md".data)
    ("[a](b.md)".data) ("/site/x.md".data) ("a".data) ("b.md".data) 'o'
    (by decide) (by decide) (by decide) (by decide) (by decide) (by decide)
    (by decide) (by decide) (by decide)

/-- Claim C10: the greedy link regex of `process_links` matches once
across a two-link line, from the first `[` to the last `)`: only the
last URL is rewritten and the first link survives, unrewritten, inside
the match's link text. -/
theorem greedy_multilink_single_match :
    processLinks ("[a](x) [b](y)".data) ("R".data) ("S".data) =
      ("[a](x) [b](R/S/y)".data) ∧
    contentMatchesG ("[a](x) [b](y)".data) = [("a](x) [b".data, "y".data)] :=
  ⟨by decide, by decide⟩
